import Mathlib

/-!
Shallow embedding of `src/lr_vs_counting.py`.

Token ids are elements of `Fin V`.  Matrices are functions `Fin V → Fin V → ℚ`
for the exact counting estimator, and `→ ℝ` for the softmax trainer, whose
mathematics uses `exp` and `log`.  numpy index assignments become pointwise
function updates; the Python loops become structural recursion mirroring the
loop order of the source.
-/

namespace LrVsCounting

/-- One numpy increment `m[r, c] += 1`. -/
def bump {V : ℕ} (m : Fin V → Fin V → ℚ) (r c : Fin V) : Fin V → Fin V → ℚ :=
  fun i j => if i = r ∧ j = c then m i j + 1 else m i j

/-- Tail of the per-sentence loop of `get_bigram_probs`, after the first token
has been handled: `prev` is the previous token; each remaining token `x`
increments `(prev, x)`, and after the final token the loop additionally
increments `(final, end_idx)`. -/
def countFrom {V : ℕ} (end_idx : Fin V) (m : Fin V → Fin V → ℚ) (prev : Fin V) :
    List (Fin V) → Fin V → Fin V → ℚ
  | [] => bump m prev end_idx
  | x :: rest => countFrom end_idx (bump m prev x) x rest

/-- Processing of one sentence by `get_bigram_probs`: an empty sentence leaves
the table unchanged (the loop body never runs); otherwise the first token
increments `(start_idx, token 0)` and the rest follows `countFrom`. -/
def countSentence {V : ℕ} (start_idx end_idx : Fin V) (m : Fin V → Fin V → ℚ) :
    List (Fin V) → Fin V → Fin V → ℚ
  | [] => m
  | x :: rest => countFrom end_idx (bump m start_idx x) x rest

/-- Count table of `get_bigram_probs` just before normalization: every cell
starts at `smoothing` and every sentence is processed in order. -/
def bigramCounts {V : ℕ} (sentences : List (List (Fin V))) (start_idx end_idx : Fin V)
    (smoothing : ℚ) : Fin V → Fin V → ℚ :=
  sentences.foldl (fun m s => countSentence start_idx end_idx m s) (fun _ _ => smoothing)

/-- `get_bigram_probs` of `src/lr_vs_counting.py`: smoothed bigram counts,
normalized along each row (`bigram_probs /= bigram_probs.sum(axis=1)`). -/
def get_bigram_probs {V : ℕ} (sentences : List (List (Fin V))) (start_idx end_idx : Fin V)
    (smoothing : ℚ) : Fin V → Fin V → ℚ :=
  fun i j => bigramCounts sentences start_idx end_idx smoothing i j /
    ∑ k, bigramCounts sentences start_idx end_idx smoothing i k

/-- State-passing form of the smoothing loop of `smoothed_loss`: `last` is the
running EMA state and `t` the step index; each step computes
`z = decay * last + (1 - decay) * x[t]` and emits `z / (1 - decay ^ (t + 1))`. -/
def smoothedAux (decay : ℚ) : List ℚ → ℚ → ℕ → List ℚ
  | [], _, _ => []
  | v :: rest, last, t =>
    (decay * last + (1 - decay) * v) / (1 - decay ^ (t + 1)) ::
      smoothedAux decay rest (decay * last + (1 - decay) * v) (t + 1)

/-- `smoothed_loss` of `src/lr_vs_counting.py`: bias-corrected exponential
moving average, with `last` initialized to `0`. -/
def smoothed_loss (x : List ℚ) (decay : ℚ) : List ℚ :=
  smoothedAux decay x 0 0

/-- Global maximum `a.max()` of a (nonempty) matrix. -/
noncomputable def gmax {n m : ℕ} (a : Fin (n + 1) → Fin (m + 1) → ℝ) : ℝ :=
  Finset.univ.sup' Finset.univ_nonempty (fun p : Fin (n + 1) × Fin (m + 1) => a p.1 p.2)

/-- `softmax` of `src/lr_vs_counting.py`: subtract the single global maximum of
the whole matrix, exponentiate, normalize each row by its own sum. -/
noncomputable def softmax {n m : ℕ} (a : Fin (n + 1) → Fin (m + 1) → ℝ) :
    Fin (n + 1) → Fin (m + 1) → ℝ :=
  fun i j => Real.exp (a i j - gmax a) / ∑ k, Real.exp (a i k - gmax a)

/-- Maximum of row `i` of a matrix. -/
noncomputable def rmax {n m : ℕ} (a : Fin (n + 1) → Fin (m + 1) → ℝ) (i : Fin (n + 1)) : ℝ :=
  Finset.univ.sup' Finset.univ_nonempty (a i)

/-- Reference definition following the spec's words: the numerically-stable
per-row softmax, subtracting each row's own maximum before exponentiating and
normalizing by the row sum.  This is the reference side of the refinement
claim about `softmax`. -/
noncomputable def rowStableSoftmax {n m : ℕ} (a : Fin (n + 1) → Fin (m + 1) → ℝ) :
    Fin (n + 1) → Fin (m + 1) → ℝ :=
  fun i j => Real.exp (a i j - rmax a i) / ∑ k, Real.exp (a i k - rmax a i)

/-- One numpy assignment `m[row, col] = 1`. -/
def setOne {r V : ℕ} (m : Fin r → Fin V → ℝ) (row : Fin r) (col : Fin V) :
    Fin r → Fin V → ℝ :=
  fun i j => if i = row ∧ j = col then 1 else m i j

/-- One-hot vector: `1` at index `t` and `0` elsewhere (spec glossary). -/
def oneHot {V : ℕ} (t : Fin V) : Fin V → ℝ :=
  fun j => if j = t then 1 else 0

/-- Padded sequence `[start_idx] + sentence + [end_idx]` formed by the
training loop. -/
def paddedSentence {V : ℕ} (start_idx end_idx : Fin V) (s : List (Fin V)) : List (Fin V) :=
  start_idx :: (s ++ [end_idx])

/-- Entry `k` of the padded sentence. -/
def paddedGet {V : ℕ} (start_idx end_idx : Fin V) (s : List (Fin V)) (k : ℕ)
    (hk : k < s.length + 2) : Fin V :=
  (paddedSentence start_idx end_idx s).get ⟨k, by
    simp only [paddedSentence, List.length_cons, List.length_append, List.length_singleton]
    omega⟩

/-- inputs matrix of the training loop: starting from `np.zeros((n - 1, V))`,
set `inputs[k, padded[k]] = 1` for each row `k`. -/
def trainInputs {V : ℕ} (start_idx end_idx : Fin V) (s : List (Fin V)) :
    Fin (s.length + 1) → Fin V → ℝ :=
  (List.finRange (s.length + 1)).foldl
    (fun m k => setOne m k (paddedGet start_idx end_idx s k.1 (Nat.lt_succ_of_lt k.isLt)))
    (fun _ _ => 0)

/-- targets matrix of the training loop: starting from `np.zeros((n - 1, V))`,
set `targets[k, padded[k + 1]] = 1` for each row `k`. -/
def trainTargets {V : ℕ} (start_idx end_idx : Fin V) (s : List (Fin V)) :
    Fin (s.length + 1) → Fin V → ℝ :=
  (List.finRange (s.length + 1)).foldl
    (fun m k => setOne m k (paddedGet start_idx end_idx s (k.1 + 1) (Nat.succ_lt_succ k.isLt)))
    (fun _ _ => 0)

/-- logits `inputs.dot(W)` of the training loop. -/
noncomputable def stepLogits {v : ℕ} (start_idx end_idx : Fin (v + 1)) (s : List (Fin (v + 1)))
    (W : Fin (v + 1) → Fin (v + 1) → ℝ) : Fin (s.length + 1) → Fin (v + 1) → ℝ :=
  fun i j => ∑ k, trainInputs start_idx end_idx s i k * W k j

/-- predictions `softmax(inputs.dot(W))` of the training loop. -/
noncomputable def stepPredictions {v : ℕ} (start_idx end_idx : Fin (v + 1))
    (s : List (Fin (v + 1))) (W : Fin (v + 1) → Fin (v + 1) → ℝ) :
    Fin (s.length + 1) → Fin (v + 1) → ℝ :=
  softmax (stepLogits start_idx end_idx s W)

/-- Mean cross-entropy `-np.sum(targets * np.log(predictions)) / (n - 1)` of
the training loop. -/
noncomputable def stepLoss {v : ℕ} (start_idx end_idx : Fin (v + 1)) (s : List (Fin (v + 1)))
    (W : Fin (v + 1) → Fin (v + 1) → ℝ) : ℝ :=
  -(∑ i, ∑ j, trainTargets start_idx end_idx s i j *
      Real.log (stepPredictions start_idx end_idx s W i j)) / (s.length + 1)

/-- Gradient step `W - lr * inputs.T.dot(predictions - targets)` of the
training loop. -/
noncomputable def stepUpdate {v : ℕ} (start_idx end_idx : Fin (v + 1)) (s : List (Fin (v + 1)))
    (W : Fin (v + 1) → Fin (v + 1) → ℝ) (lr : ℝ) : Fin (v + 1) → Fin (v + 1) → ℝ :=
  fun a b => W a b - lr * ∑ i, trainInputs start_idx end_idx s i a *
    (stepPredictions start_idx end_idx s W i b - trainTargets start_idx end_idx s i b)

/-- One full training step on one sentence: the updated weight matrix paired
with the loss recorded for this step. -/
noncomputable def trainStep {v : ℕ} (start_idx end_idx : Fin (v + 1)) (s : List (Fin (v + 1)))
    (W : Fin (v + 1) → Fin (v + 1) → ℝ) (lr : ℝ) :
    (Fin (v + 1) → Fin (v + 1) → ℝ) × ℝ :=
  (stepUpdate start_idx end_idx s W lr, stepLoss start_idx end_idx s W)

/-! Basic facts about the counting primitives. -/

theorem bump_eq_add {V : ℕ} (m : Fin V → Fin V → ℚ) (r c i j : Fin V) :
    bump m r c i j = m i j + (if i = r ∧ j = c then 1 else 0) := by
  unfold bump
  split
  · rfl
  · simp

theorem le_bump {V : ℕ} (m : Fin V → Fin V → ℚ) (r c i j : Fin V) :
    m i j ≤ bump m r c i j := by
  rw [bump_eq_add]
  split <;> linarith

theorem le_countFrom {V : ℕ} (e : Fin V) (rest : List (Fin V)) (m : Fin V → Fin V → ℚ)
    (prev i j : Fin V) : m i j ≤ countFrom e m prev rest i j := by
  induction rest generalizing m prev with
  | nil => exact le_bump m prev e i j
  | cons x t ih => exact le_trans (le_bump m prev x i j) (ih (bump m prev x) x)

theorem le_countSentence {V : ℕ} (start_idx end_idx : Fin V) (m : Fin V → Fin V → ℚ)
    (s : List (Fin V)) (i j : Fin V) : m i j ≤ countSentence start_idx end_idx m s i j := by
  cases s with
  | nil => exact le_refl _
  | cons x t =>
    exact le_trans (le_bump m start_idx x i j) (le_countFrom end_idx t _ x i j)

theorem le_bigramCounts {V : ℕ} (sentences : List (List (Fin V))) (start_idx end_idx : Fin V)
    (smoothing : ℚ) (i j : Fin V) :
    smoothing ≤ bigramCounts sentences start_idx end_idx smoothing i j := by
  unfold bigramCounts
  have h : ∀ (l : List (List (Fin V))) (m : Fin V → Fin V → ℚ),
      m i j ≤ l.foldl (fun m s => countSentence start_idx end_idx m s) m i j := by
    intro l
    induction l with
    | nil => intro m; exact le_refl _
    | cons s t ih =>
      intro m
      exact le_trans (le_countSentence start_idx end_idx m s i j) (ih _)
  exact h sentences (fun _ _ => smoothing)

/-- Claim C1: for every finite collection of sentences over `Fin V` and every
smoothing > 0, every row of the table returned by `get_bigram_probs` sums to 1
and every entry is strictly positive. -/
theorem bigram_probs_row_sum_one_and_pos {V : ℕ} (sentences : List (List (Fin V)))
    (start_idx end_idx : Fin V) (smoothing : ℚ) (hsm : 0 < smoothing) (i : Fin V) :
    (∑ j, get_bigram_probs sentences start_idx end_idx smoothing i j) = 1 ∧
    ∀ j, 0 < get_bigram_probs sentences start_idx end_idx smoothing i j := by
  have hpos : ∀ j, 0 < bigramCounts sentences start_idx end_idx smoothing i j :=
    fun j => lt_of_lt_of_le hsm (le_bigramCounts sentences start_idx end_idx smoothing i j)
  have hS : 0 < ∑ k, bigramCounts sentences start_idx end_idx smoothing i k :=
    Finset.sum_pos (fun k _ => hpos k) ⟨i, Finset.mem_univ i⟩
  constructor
  · unfold get_bigram_probs
    rw [← Finset.sum_div, div_self (ne_of_gt hS)]
  · intro j
    exact div_pos (hpos j) hS

/-- Witness for C1 at a concrete corpus: V = 2, sentences `[[0], [1]]`,
start 0, end 1, smoothing 1, row 0. -/
theorem bigram_probs_row_sum_one_and_pos_witness :
    (0 : ℚ) < 1 ∧
    ((∑ j, get_bigram_probs [[(0 : Fin 2)], [1]] 0 1 1 0 j) = 1 ∧
      ∀ j, 0 < get_bigram_probs [[(0 : Fin 2)], [1]] 0 1 1 0 j) :=
  ⟨by norm_num, bigram_probs_row_sum_one_and_pos [[(0 : Fin 2)], [1]] 0 1 1 (by norm_num) 0⟩

/-! Row and column bookkeeping for single increments. -/

theorem sum_bump_row {V : ℕ} (m : Fin V → Fin V → ℚ) (r c i : Fin V) :
    (∑ j, bump m r c i j) = (∑ j, m i j) + (if i = r then 1 else 0) := by
  simp only [bump_eq_add, Finset.sum_add_distrib]
  congr 1
  by_cases hi : i = r
  · simp [hi]
  · simp [hi]

theorem sum_bump_col {V : ℕ} (m : Fin V → Fin V → ℚ) (r c j : Fin V) :
    (∑ a, bump m r c a j) = (∑ a, m a j) + (if j = c then 1 else 0) := by
  simp only [bump_eq_add, Finset.sum_add_distrib]
  congr 1
  by_cases hj : j = c
  · simp [hj]
  · simp [hj]

theorem countFrom_ne_row {V : ℕ} (e : Fin V) (rest : List (Fin V)) (r j : Fin V) :
    ∀ (m : Fin V → Fin V → ℚ) (prev : Fin V), r ≠ prev → r ∉ rest →
      countFrom e m prev rest r j = m r j := by
  induction rest with
  | nil =>
    intro m prev hr _
    simp [countFrom, bump_eq_add, hr]
  | cons x t ih =>
    intro m prev hr h2
    have hx : r ≠ x := fun h => h2 (by simp [h])
    have ht : r ∉ t := fun h => h2 (List.mem_cons_of_mem x h)
    calc countFrom e m prev (x :: t) r j
        = countFrom e (bump m prev x) x t r j := rfl
      _ = bump m prev x r j := ih (bump m prev x) x hx ht
      _ = m r j := by simp [bump_eq_add, hr]

theorem sum_countFrom_col {V : ℕ} (e : Fin V) (rest : List (Fin V)) :
    ∀ (m : Fin V → Fin V → ℚ) (prev : Fin V), e ∉ rest →
      (∑ a, countFrom e m prev rest a e) = (∑ a, m a e) + 1 := by
  induction rest with
  | nil =>
    intro m prev _
    calc (∑ a, countFrom e m prev [] a e) = ∑ a, bump m prev e a e := rfl
      _ = (∑ a, m a e) + 1 := by rw [sum_bump_col]; simp
  | cons x t ih =>
    intro m prev h2
    have hx : e ≠ x := fun h => h2 (by simp [h])
    have ht : e ∉ t := fun h => h2 (List.mem_cons_of_mem x h)
    calc (∑ a, countFrom e m prev (x :: t) a e)
        = ∑ a, countFrom e (bump m prev x) x t a e := rfl
      _ = (∑ a, bump m prev x a e) + 1 := ih (bump m prev x) x ht
      _ = (∑ a, m a e) + 1 := by rw [sum_bump_col]; simp [hx]

/-- Claim C2 (amended): every NON-EMPTY sentence containing neither boundary
id adds exactly one count to row `start_idx` (its start-transition) and
exactly one count to column `end_idx` (its end-transition), on top of the
table it is processed into. -/
theorem sentence_adds_one_start_one_end {V : ℕ} (start_idx end_idx : Fin V)
    (m : Fin V → Fin V → ℚ) (s : List (Fin V)) (hne : s ≠ [])
    (hs : start_idx ∉ s) (he : end_idx ∉ s) :
    (∑ j, countSentence start_idx end_idx m s start_idx j) = (∑ j, m start_idx j) + 1 ∧
    (∑ a, countSentence start_idx end_idx m s a end_idx) = (∑ a, m a end_idx) + 1 := by
  cases s with
  | nil => exact absurd rfl hne
  | cons x t =>
    have hsx : start_idx ≠ x := fun h => hs (by simp [h])
    have hst : start_idx ∉ t := fun h => hs (List.mem_cons_of_mem x h)
    have hex : end_idx ≠ x := fun h => he (by simp [h])
    have het : end_idx ∉ t := fun h => he (List.mem_cons_of_mem x h)
    constructor
    · calc (∑ j, countSentence start_idx end_idx m (x :: t) start_idx j)
          = ∑ j, bump m start_idx x start_idx j :=
            Finset.sum_congr rfl fun j _ =>
              countFrom_ne_row end_idx t start_idx j (bump m start_idx x) x hsx hst
        _ = (∑ j, m start_idx j) + 1 := by rw [sum_bump_row]; simp
    · calc (∑ a, countSentence start_idx end_idx m (x :: t) a end_idx)
          = ∑ a, countFrom end_idx (bump m start_idx x) x t a end_idx := rfl
        _ = (∑ a, bump m start_idx x a end_idx) + 1 :=
            sum_countFrom_col end_idx t (bump m start_idx x) x het
        _ = (∑ a, m a end_idx) + 1 := by rw [sum_bump_col]; simp [hex]

/-- Witness for the amended C2: V = 3, start 0, end 1, sentence `[2]`,
processed into the all-ones table. -/
theorem sentence_adds_one_start_one_end_witness :
    (∑ j, countSentence (0 : Fin 3) 1 (fun _ _ => (1 : ℚ)) [2] 0 j)
        = (∑ _j : Fin 3, (1 : ℚ)) + 1 ∧
    (∑ a, countSentence (0 : Fin 3) 1 (fun _ _ => (1 : ℚ)) [2] a 1)
        = (∑ _a : Fin 3, (1 : ℚ)) + 1 :=
  sentence_adds_one_start_one_end 0 1 (fun _ _ => 1) [2]
    (by decide) (by decide) (by decide)

/-- Counterexample to claim C2 as stated: a length-0 sentence adds no count at
all.  With V = 2, start 0, end 1, smoothing 1, processing the corpus `[[]]`
leaves row 0 at its smoothing floor (row sum 2), not floor + 1 (row sum 3). -/
theorem empty_sentence_adds_no_count :
    ¬ ((∑ j, bigramCounts [([] : List (Fin 2))] 0 1 1 0 j)
        = (∑ _j : Fin 2, (1 : ℚ)) + 1) := by
  norm_num [bigramCounts, countSentence, List.foldl, Fin.sum_univ_two]

/-! Rows other than those a sentence touches keep their smoothing floor. -/

theorem countSentence_ne_row {V : ℕ} (start_idx end_idx : Fin V) (m : Fin V → Fin V → ℚ)
    (s : List (Fin V)) (r : Fin V) (hr : r ≠ start_idx) (h2 : r ∉ s) (j : Fin V) :
    countSentence start_idx end_idx m s r j = m r j := by
  cases s with
  | nil => rfl
  | cons x t =>
    have hx : r ≠ x := fun h => h2 (by simp [h])
    have ht : r ∉ t := fun h => h2 (List.mem_cons_of_mem x h)
    calc countSentence start_idx end_idx m (x :: t) r j
        = countFrom end_idx (bump m start_idx x) x t r j := rfl
      _ = bump m start_idx x r j := countFrom_ne_row end_idx t r j (bump m start_idx x) x hx ht
      _ = m r j := by simp [bump_eq_add, hr]

theorem bigramCounts_ne_row {V : ℕ} (sentences : List (List (Fin V)))
    (start_idx end_idx : Fin V) (smoothing : ℚ) (r : Fin V) (hr : r ≠ start_idx)
    (h2 : ∀ s ∈ sentences, r ∉ s) (j : Fin V) :
    bigramCounts sentences start_idx end_idx smoothing r j = smoothing := by
  unfold bigramCounts
  have h : ∀ (l : List (List (Fin V))) (m : Fin V → Fin V → ℚ), (∀ s ∈ l, r ∉ s) →
      l.foldl (fun m s => countSentence start_idx end_idx m s) m r j = m r j := by
    intro l
    induction l with
    | nil => intro m _; rfl
    | cons s t ih =>
      intro m hl
      calc (List.foldl (fun m s => countSentence start_idx end_idx m s) m (s :: t)) r j
          = (List.foldl (fun m s => countSentence start_idx end_idx m s)
              (countSentence start_idx end_idx m s) t) r j := rfl
        _ = countSentence start_idx end_idx m s r j :=
            ih _ (fun u hu => hl u (List.mem_cons_of_mem s hu))
        _ = m r j := countSentence_ne_row start_idx end_idx m s r hr
            (hl s (List.mem_cons_self s t)) j
  exact h sentences _ h2

/-- Claim C10: if no sentence of the corpus contains `end_idx` (and the two
boundary ids are distinct, smoothing positive), row `end_idx` of the table
returned by `get_bigram_probs` is exactly uniform: every entry is `1 / V`. -/
theorem end_row_uniform {V : ℕ} (sentences : List (List (Fin V)))
    (start_idx end_idx : Fin V) (smoothing : ℚ) (hne : start_idx ≠ end_idx)
    (hsm : 0 < smoothing) (hend : ∀ s ∈ sentences, end_idx ∉ s) (j : Fin V) :
    get_bigram_probs sentences start_idx end_idx smoothing end_idx j = 1 / (V : ℚ) := by
  have hrow : ∀ k, bigramCounts sentences start_idx end_idx smoothing end_idx k = smoothing :=
    fun k => bigramCounts_ne_row sentences start_idx end_idx smoothing end_idx hne.symm hend k
  have hV : (0 : ℚ) < (V : ℚ) := by exact_mod_cast end_idx.pos
  unfold get_bigram_probs
  rw [Finset.sum_congr rfl (fun k _ => hrow k), hrow j, Finset.sum_const, Finset.card_univ,
    Fintype.card_fin, nsmul_eq_mul]
  rw [div_eq_div_iff (mul_pos hV hsm).ne' hV.ne']
  ring

/-- Witness for C10: V = 2, corpus `[[0]]`, start 0, end 1, smoothing 1;
entry (1, 0) of the table is 1/2. -/
theorem end_row_uniform_witness :
    (0 : Fin 2) ≠ 1 ∧ (0 : ℚ) < 1 ∧ (∀ s ∈ [[(0 : Fin 2)]], (1 : Fin 2) ∉ s) ∧
      get_bigram_probs [[(0 : Fin 2)]] 0 1 1 1 0 = 1 / ((2 : ℕ) : ℚ) :=
  ⟨by decide, by norm_num, by decide,
    end_row_uniform [[(0 : Fin 2)]] 0 1 1 (by decide) (by norm_num) (by decide) 0⟩

/-! Permutation invariance: each sentence contributes an additive delta to the
count table, and addition of deltas is commutative. -/

theorem countFrom_add {V : ℕ} (e : Fin V) (rest : List (Fin V)) :
    ∀ (m : Fin V → Fin V → ℚ) (prev i j : Fin V),
      countFrom e m prev rest i j = m i j + countFrom e (fun _ _ => 0) prev rest i j := by
  induction rest with
  | nil =>
    intro m prev i j
    simp [countFrom, bump_eq_add]
  | cons x t ih =>
    intro m prev i j
    calc countFrom e m prev (x :: t) i j
        = countFrom e (bump m prev x) x t i j := rfl
      _ = bump m prev x i j + countFrom e (fun _ _ => 0) x t i j := ih _ x i j
      _ = m i j + (bump (fun _ _ => 0) prev x i j
            + countFrom e (fun _ _ => 0) x t i j) := by
          rw [bump_eq_add, bump_eq_add]; ring
      _ = m i j + countFrom e (fun _ _ => 0) prev (x :: t) i j := by
          rw [show countFrom e (fun _ _ => (0 : ℚ)) prev (x :: t) i j
              = bump (fun _ _ => (0 : ℚ)) prev x i j + countFrom e (fun _ _ => 0) x t i j
            from ih _ x i j]

theorem countSentence_add {V : ℕ} (start_idx end_idx : Fin V) (m : Fin V → Fin V → ℚ)
    (s : List (Fin V)) (i j : Fin V) :
    countSentence start_idx end_idx m s i j
      = m i j + countSentence start_idx end_idx (fun _ _ => 0) s i j := by
  cases s with
  | nil => simp [countSentence]
  | cons x t =>
    calc countSentence start_idx end_idx m (x :: t) i j
        = countFrom end_idx (bump m start_idx x) x t i j := rfl
      _ = bump m start_idx x i j + countFrom end_idx (fun _ _ => 0) x t i j :=
          countFrom_add end_idx t _ x i j
      _ = m i j + (bump (fun _ _ => 0) start_idx x i j
            + countFrom end_idx (fun _ _ => 0) x t i j) := by
          rw [bump_eq_add, bump_eq_add]; ring
      _ = m i j + countSentence start_idx end_idx (fun _ _ => 0) (x :: t) i j := by
          rw [show countSentence start_idx end_idx (fun _ _ => (0 : ℚ)) (x :: t) i j
              = bump (fun _ _ => (0 : ℚ)) start_idx x i j
                + countFrom end_idx (fun _ _ => 0) x t i j
            from countFrom_add end_idx t _ x i j]

theorem countSentence_add_fun {V : ℕ} (start_idx end_idx : Fin V) (m : Fin V → Fin V → ℚ)
    (s : List (Fin V)) :
    countSentence start_idx end_idx m s
      = m + countSentence start_idx end_idx (fun _ _ => 0) s := by
  funext i j
  exact countSentence_add start_idx end_idx m s i j

theorem foldl_countSentence_eq {V : ℕ} (start_idx end_idx : Fin V)
    (l : List (List (Fin V))) :
    ∀ m : Fin V → Fin V → ℚ,
      l.foldl (fun m s => countSentence start_idx end_idx m s) m
        = m + (l.map (fun s => countSentence start_idx end_idx (fun _ _ => 0) s)).sum := by
  induction l with
  | nil => intro m; simp
  | cons s t ih =>
    intro m
    calc List.foldl (fun m s => countSentence start_idx end_idx m s) m (s :: t)
        = List.foldl (fun m s => countSentence start_idx end_idx m s)
            (countSentence start_idx end_idx m s) t := rfl
      _ = countSentence start_idx end_idx m s
            + (t.map (fun s => countSentence start_idx end_idx (fun _ _ => 0) s)).sum := ih _
      _ = m + ((s :: t).map (fun s => countSentence start_idx end_idx (fun _ _ => 0) s)).sum := by
          rw [List.map_cons, List.sum_cons, countSentence_add_fun, add_assoc]

/-- Claim C8: `get_bigram_probs` is invariant under permutation of the sentence
collection — two orderings of the same multiset of sentences give equal
probability tables. -/
theorem bigram_probs_perm_invariant {V : ℕ} (l₁ l₂ : List (List (Fin V)))
    (start_idx end_idx : Fin V) (smoothing : ℚ) (h : l₁.Perm l₂) :
    get_bigram_probs l₁ start_idx end_idx smoothing
      = get_bigram_probs l₂ start_idx end_idx smoothing := by
  have hc : bigramCounts l₁ start_idx end_idx smoothing
      = bigramCounts l₂ start_idx end_idx smoothing := by
    unfold bigramCounts
    rw [foldl_countSentence_eq, foldl_countSentence_eq]
    congr 1
    exact List.Perm.sum_eq (h.map _)
  unfold get_bigram_probs
  rw [hc]

/-- Witness for C8: the two orderings of the corpus `{[0], [1]}` give the same
table. -/
theorem bigram_probs_perm_invariant_witness :
    get_bigram_probs [[(0 : Fin 2)], [1]] 0 1 1
      = get_bigram_probs [[(1 : Fin 2)], [0]] 0 1 1 :=
  bigram_probs_perm_invariant [[(0 : Fin 2)], [1]] [[1], [0]] 0 1 1 (by decide)

/-! Behaviour of the estimator on non-positive smoothing. -/

/-- Counterexample to claim C3 as stated: called with smoothing = 0 the code
raises nothing and still returns a table — here the full concrete table for
V = 2, corpus `[[0], [1]]`, start 0, end 1.  No validation of smoothing exists
in `get_bigram_probs`. -/
theorem smoothing_zero_returns_table :
    get_bigram_probs [[(0 : Fin 2)], [1]] 0 1 0
      = fun i j => if i = 0 then (if j = 0 then 1/3 else 2/3)
          else (if j = 0 then 0 else 1) := by
  funext i j
  fin_cases i <;> fin_cases j <;>
    norm_num [get_bigram_probs, bigramCounts, countSentence, countFrom, bump, List.foldl,
      Fin.sum_univ_two]

/-- Claim C3 (amended): `get_bigram_probs` performs no validation of smoothing
and raises no error; for any smoothing value — including smoothing ≤ 0 — it
returns the normalized count table, and every row whose pre-normalization
count sum is positive still sums to 1. -/
theorem no_smoothing_validation {V : ℕ} (sentences : List (List (Fin V)))
    (start_idx end_idx : Fin V) (smoothing : ℚ) (i : Fin V)
    (h : 0 < ∑ k, bigramCounts sentences start_idx end_idx smoothing i k) :
    (∑ j, get_bigram_probs sentences start_idx end_idx smoothing i j) = 1 := by
  unfold get_bigram_probs
  rw [← Finset.sum_div, div_self (ne_of_gt h)]

/-- Witness for the amended C3 at smoothing = 0: the counts of row 0 of the
corpus `[[0], [1]]` sum to 3 > 0 and the returned row still sums to 1. -/
theorem no_smoothing_validation_witness :
    (0 : ℚ) < (∑ k, bigramCounts [[(0 : Fin 2)], [1]] 0 1 0 0 k) ∧
      (∑ j, get_bigram_probs [[(0 : Fin 2)], [1]] 0 1 0 0 j) = 1 :=
  ⟨by norm_num [bigramCounts, countSentence, countFrom, bump, List.foldl, Fin.sum_univ_two],
    no_smoothing_validation [[(0 : Fin 2)], [1]] 0 1 0 0
      (by norm_num [bigramCounts, countSentence, countFrom, bump, List.foldl,
        Fin.sum_univ_two])⟩

/-! Loss smoothing. -/

/-- Claim C7: for every decay d in [0, 1) and every non-empty raw series, the
first element of `smoothed_loss` equals the first raw element exactly. -/
theorem smoothed_loss_head {d v : ℚ} {rest : List ℚ} (_h0 : 0 ≤ d) (h1 : d < 1) :
    (smoothed_loss (v :: rest) d).head? = some v := by
  have hd : (1 : ℚ) - d ≠ 0 := sub_ne_zero.mpr h1.ne'
  simp only [smoothed_loss, smoothedAux, List.head?_cons, Option.some.injEq, zero_add,
    pow_one, mul_zero]
  exact mul_div_cancel_left₀ v hd

/-- Witness for C7 at decay 1/2 and series `[3]`. -/
theorem smoothed_loss_head_witness :
    (0 : ℚ) ≤ 1 / 2 ∧ (1 / 2 : ℚ) < 1 ∧ (smoothed_loss [3] (1 / 2)).head? = some 3 :=
  ⟨by norm_num, by norm_num, smoothed_loss_head (by norm_num) (by norm_num)⟩

/-! Softmax: subtracting any constant before exponentiating cancels in the
row-normalized quotient. -/

theorem exp_div_sum_shift {m : ℕ} (f : Fin (m + 1) → ℝ) (c : ℝ) (j : Fin (m + 1)) :
    Real.exp (f j - c) / ∑ k, Real.exp (f k - c)
      = Real.exp (f j) / ∑ k, Real.exp (f k) := by
  have h : ∀ k, Real.exp (f k - c) = Real.exp (f k) * (Real.exp c)⁻¹ := by
    intro k
    rw [Real.exp_sub, div_eq_mul_inv]
  simp only [h]
  rw [← Finset.sum_mul]
  exact mul_div_mul_right _ _ (inv_ne_zero (Real.exp_ne_zero c))

/-- Claim C4: the `softmax` of the code — which subtracts the single global
maximum of the matrix — computes exactly the per-row numerically-stable
softmax of the spec, and every one of its output rows sums to 1. -/
theorem softmax_eq_row_stable_and_stochastic {n m : ℕ}
    (a : Fin (n + 1) → Fin (m + 1) → ℝ) :
    softmax a = rowStableSoftmax a ∧ ∀ i, (∑ j, softmax a i j) = 1 := by
  constructor
  · funext i j
    unfold softmax rowStableSoftmax
    rw [exp_div_sum_shift (a i) (gmax a) j, exp_div_sum_shift (a i) (rmax a i) j]
  · intro i
    unfold softmax
    rw [← Finset.sum_div, div_self (ne_of_gt (Finset.sum_pos (fun k _ => Real.exp_pos _)
      Finset.univ_nonempty))]

/-! One-hot example construction of the training loop. -/

theorem foldl_setOne {r V : ℕ} (g : Fin r → Fin V) (l : List (Fin r))
    (m : Fin r → Fin V → ℝ) (i : Fin r) (j : Fin V) :
    (l.foldl (fun acc k => setOne acc k (g k)) m) i j
      = if i ∈ l ∧ j = g i then 1 else m i j := by
  induction l generalizing m with
  | nil => simp
  | cons x t ih =>
    simp only [List.foldl_cons, ih, List.mem_cons, setOne]
    by_cases h1 : i ∈ t <;> by_cases h2 : j = g i <;> by_cases h3 : i = x <;> simp_all

theorem trainInputs_eq_oneHot {V : ℕ} (start_idx end_idx : Fin V) (s : List (Fin V))
    (k : Fin (s.length + 1)) :
    trainInputs start_idx end_idx s k
      = oneHot (paddedGet start_idx end_idx s k.1 (Nat.lt_succ_of_lt k.isLt)) := by
  funext j
  unfold trainInputs oneHot
  rw [foldl_setOne (fun k => paddedGet start_idx end_idx s k.1 (Nat.lt_succ_of_lt k.isLt))]
  simp [List.mem_finRange]

theorem trainTargets_eq_oneHot {V : ℕ} (start_idx end_idx : Fin V) (s : List (Fin V))
    (k : Fin (s.length + 1)) :
    trainTargets start_idx end_idx s k
      = oneHot (paddedGet start_idx end_idx s (k.1 + 1) (Nat.succ_lt_succ k.isLt)) := by
  funext j
  unfold trainTargets oneHot
  rw [foldl_setOne
    (fun k : Fin (s.length + 1) =>
      paddedGet start_idx end_idx s (k.1 + 1) (Nat.succ_lt_succ k.isLt))]
  simp [List.mem_finRange]

/-- Claim C5: for a raw sentence of length n the trainer forms the padded
sequence `[start_idx] + sentence + [end_idx]` (length n + 2) and produces
exactly n + 1 one-hot training examples; example k has input
one-hot(padded[k]) and target one-hot(padded[k + 1]), for k = 0..n. -/
theorem training_examples_one_hot {V : ℕ} (start_idx end_idx : Fin V)
    (s : List (Fin V)) :
    (paddedSentence start_idx end_idx s).length = s.length + 2 ∧
    Fintype.card (Fin (s.length + 1)) = s.length + 1 ∧
    ∀ k : Fin (s.length + 1),
      trainInputs start_idx end_idx s k
          = oneHot (paddedGet start_idx end_idx s k.1 (Nat.lt_succ_of_lt k.isLt)) ∧
      trainTargets start_idx end_idx s k
          = oneHot (paddedGet start_idx end_idx s (k.1 + 1) (Nat.succ_lt_succ k.isLt)) := by
  refine ⟨by simp [paddedSentence], Fintype.card_fin _, fun k => ⟨?_, ?_⟩⟩
  · exact trainInputs_eq_oneHot start_idx end_idx s k
  · exact trainTargets_eq_oneHot start_idx end_idx s k

/-! Forward pass with all-zero weights. -/

theorem sum_trainTargets_row {V : ℕ} (start_idx end_idx : Fin V) (s : List (Fin V))
    (k : Fin (s.length + 1)) :
    (∑ j, trainTargets start_idx end_idx s k j) = 1 := by
  rw [trainTargets_eq_oneHot]
  unfold oneHot
  simp

theorem stepLogits_zero {v : ℕ} (start_idx end_idx : Fin (v + 1)) (s : List (Fin (v + 1)))
    (i : Fin (s.length + 1)) (j : Fin (v + 1)) :
    stepLogits start_idx end_idx s (fun _ _ => 0) i j = 0 := by
  unfold stepLogits
  simp

theorem softmax_const_zero {n m : ℕ} (i : Fin (n + 1)) (j : Fin (m + 1)) :
    softmax (fun _ _ => (0 : ℝ)) i j = 1 / ((m : ℝ) + 1) := by
  unfold softmax gmax
  rw [Finset.sup'_const]
  simp [Finset.sum_const, Finset.card_univ, nsmul_eq_mul]

theorem stepPredictions_zero {v : ℕ} (start_idx end_idx : Fin (v + 1))
    (s : List (Fin (v + 1))) (i : Fin (s.length + 1)) (j : Fin (v + 1)) :
    stepPredictions start_idx end_idx s (fun _ _ => 0) i j = 1 / ((v : ℝ) + 1) := by
  unfold stepPredictions
  have h : stepLogits start_idx end_idx s (fun _ _ => 0) = fun _ _ => 0 := by
    funext a b
    exact stepLogits_zero start_idx end_idx s a b
  rw [h]
  exact softmax_const_zero i j

theorem stepLoss_zero {v : ℕ} (start_idx end_idx : Fin (v + 1)) (s : List (Fin (v + 1))) :
    stepLoss start_idx end_idx s (fun _ _ => 0) = Real.log ((v : ℝ) + 1) := by
  unfold stepLoss
  have hrow : ∀ i : Fin (s.length + 1),
      (∑ j, trainTargets start_idx end_idx s i j *
          Real.log (stepPredictions start_idx end_idx s (fun _ _ => 0) i j))
        = Real.log (1 / ((v : ℝ) + 1)) := by
    intro i
    calc (∑ j, trainTargets start_idx end_idx s i j *
            Real.log (stepPredictions start_idx end_idx s (fun _ _ => 0) i j))
        = ∑ j, trainTargets start_idx end_idx s i j * Real.log (1 / ((v : ℝ) + 1)) :=
          Finset.sum_congr rfl fun j _ => by
            rw [stepPredictions_zero start_idx end_idx s i j]
      _ = (∑ j, trainTargets start_idx end_idx s i j) * Real.log (1 / ((v : ℝ) + 1)) := by
          rw [Finset.sum_mul]
      _ = Real.log (1 / ((v : ℝ) + 1)) := by
          rw [sum_trainTargets_row]; ring
  rw [Finset.sum_congr rfl fun i _ => hrow i]
  rw [Finset.sum_const, Finset.card_univ, Fintype.card_fin, nsmul_eq_mul, one_div,
    Real.log_inv]
  have hn : ((s.length : ℝ) + 1) ≠ 0 := by positivity
  push_cast
  field_simp

/-- Claim C6: with the weight matrix all zeros, every softmax row of the
forward pass is the uniform distribution (1/V per column) and the mean
cross-entropy loss of the step is exactly log V; in particular for V = 4 the
loss equals log 4. -/
theorem zero_weights_uniform_and_log_loss {v : ℕ} (start_idx end_idx : Fin (v + 1))
    (s : List (Fin (v + 1))) :
    (∀ (i : Fin (s.length + 1)) (j : Fin (v + 1)),
        stepPredictions start_idx end_idx s (fun _ _ => 0) i j = 1 / ((v : ℝ) + 1)) ∧
    stepLoss start_idx end_idx s (fun _ _ => 0) = Real.log ((v : ℝ) + 1) ∧
    stepLoss (0 : Fin 4) 1 [2, 3] (fun _ _ => 0) = Real.log 4 := by
  refine ⟨stepPredictions_zero start_idx end_idx s, stepLoss_zero start_idx end_idx s, ?_⟩
  have h := stepLoss_zero (0 : Fin 4) 1 [2, 3]
  norm_num at h
  exact h

/-- Claim C9: one training step is a pure deterministic function of the
initial weight matrix, the sentence, and the learning rate: two runs on equal
inputs yield identical updated weights and identical loss. -/
theorem trainStep_deterministic {v : ℕ} (start_idx end_idx : Fin (v + 1))
    (s₁ s₂ : List (Fin (v + 1))) (W₁ W₂ : Fin (v + 1) → Fin (v + 1) → ℝ)
    (lr₁ lr₂ : ℝ) (hs : s₁ = s₂) (hW : W₁ = W₂) (hlr : lr₁ = lr₂) :
    trainStep start_idx end_idx s₁ W₁ lr₁ = trainStep start_idx end_idx s₂ W₂ lr₂ := by
  subst hs
  subst hW
  subst hlr
  rfl

/-- Witness for C9 at concrete inputs: V = 2, sentence `[0]`, zero weights,
learning rate 1/10, run twice. -/
theorem trainStep_deterministic_witness :
    trainStep (0 : Fin 2) 1 [0] (fun _ _ => 0) (1 / 10)
      = trainStep (0 : Fin 2) 1 [0] (fun _ _ => 0) (1 / 10) :=
  trainStep_deterministic 0 1 [0] [0] (fun _ _ => 0) (fun _ _ => 0) (1 / 10) (1 / 10)
    rfl rfl rfl

end LrVsCounting
